import Mathlib

/-!
Verification development for the NoteScape relationship-extraction and
graph-maintenance engine.

The repository ships the React client (`app/client/src`), the README with the
HTTP API documentation, and configuration files; the server-side engine
(feature extractor, candidate generator, similarity scorer, relationship graph
maintainer, analysis orchestrator, graph query assembler) is described by the
specification but its source is not part of the checked-in tree.  Definitions
for those components are therefore modelled from the specification text and
are marked as such in their doc comments.  Client-side behaviour
(`processGraphData`, `processContent`) is translated directly from the
JavaScript sources.

Identifiers and terms are abstracted to natural numbers: note identifiers are
totally ordered, standing for the lexicographic order on string identifiers,
and terms stand for tokenized words after normalization.  Strengths and
weights are rational numbers.
-/

namespace NoteScape

/-- Note identifiers, totally ordered (stands for the lexicographic order on
the string identifiers used by the implementation). -/
abbrev NoteId := Nat

/-- Term identifiers (tokenized words after normalization). -/
abbrev TermId := Nat

/-- Modelled from the spec: a Note owned by the external Note collaborator.
The body is the token sequence obtained from the raw text. -/
structure Note where
  id : Nat
  title : String
  body : List Nat
  tags : List String
  lastModified : Nat
deriving DecidableEq, Repr

/-- Modelled from the spec: the recognized configuration surface
(`similarityThreshold`, `maxRelationshipsPerNote`, `maxCandidatesPerNote`)
together with the keyword-mode parameters (stop-word list and the minimum
term weight used by scoring and candidate generation). -/
structure Config where
  similarityThreshold : ℚ
  maxRelationshipsPerNote : Nat
  maxCandidatesPerNote : Nat
  minTermWeight : ℚ
  stopWords : List TermId
deriving DecidableEq, Repr

/-! ### Feature Extractor (keyword mode), modelled from the spec §4.1 -/

/-- Modelled from the spec: keyword-mode feature extraction — tokenize (the
body is already a token list), remove stop-words; the retained token list
(with multiplicity) represents the note for frequency weighting.  Pure
function of note content and configuration. -/
def extract (cfg : Config) (n : Note) : List TermId :=
  n.body.filter (fun t => decide (t ∉ cfg.stopWords))

/-- Modelled from the spec: frequency weighting — the weight of a term in a
feature representation is its occurrence count. -/
def termWeight (f : List TermId) (t : TermId) : ℚ :=
  (f.count t : ℚ)

/-- Modelled from the spec §4.3: the weighted-term mapping restricted to the
terms whose weight reaches the minimum weight threshold; below-threshold
terms contribute weight 0. -/
def restrictedWeight (cfg : Config) (f : List TermId) (t : TermId) : ℚ :=
  if cfg.minTermWeight ≤ termWeight f t then termWeight f t else 0

/-- The term universe a pair is scored over: the deduplicated union of the
two token lists. -/
def termUniverse (f g : List TermId) : List TermId :=
  (f ++ g).dedup

/-! ### Similarity Scorer (keyword mode), modelled from the spec §4.3 -/

/-- Modelled from the spec §4.3: shared weight of the two restricted
weighted-term mappings (sum over the term universe of the pointwise minimum
of the two weights). -/
def sharedWeight (cfg : Config) (f g : List TermId) : ℚ :=
  ((termUniverse f g).map
    (fun t => min (restrictedWeight cfg f t) (restrictedWeight cfg g t))).sum

/-- Modelled from the spec §4.3: union weight of the two restricted
weighted-term mappings (sum over the term universe of the pointwise maximum
of the two weights). -/
def unionWeight (cfg : Config) (f g : List TermId) : ℚ :=
  ((termUniverse f g).map
    (fun t => max (restrictedWeight cfg f t) (restrictedWeight cfg g t))).sum

/-- Modelled from the spec §4.3: keyword-mode strength — the weighted Jaccard
similarity (shared weight over union weight) of the two restricted
weighted-term mappings; 0 when the union weight is 0. -/
def score (cfg : Config) (f g : List TermId) : ℚ :=
  if unionWeight cfg f g = 0 then 0 else sharedWeight cfg f g / unionWeight cfg f g

/-- Evidence storage cap (fixed count, spec §4.3 suggests e.g. 10). -/
def evidenceCap : Nat := 10

/-- Combined weight of a term across the two mappings, used to order
evidence. -/
def combinedWeight (cfg : Config) (f g : List TermId) (t : TermId) : ℚ :=
  restrictedWeight cfg f t + restrictedWeight cfg g t

/-- Deterministic evidence ordering: combined weight descending, term
identifier ascending on ties. -/
def evidenceOrder (cfg : Config) (f g : List TermId) (s t : TermId) : Prop :=
  combinedWeight cfg f g t < combinedWeight cfg f g s ∨
    (combinedWeight cfg f g s = combinedWeight cfg f g t ∧ s ≤ t)

instance evidenceOrderDecidable (cfg : Config) (f g : List TermId) :
    DecidableRel (evidenceOrder cfg f g) := fun s t => by
  unfold evidenceOrder; exact inferInstance

/-- Modelled from the spec §4.3: evidence — the shared term set (terms with
positive weight in both restricted mappings), ordered by combined weight
(descending, deterministic tie-break by term identifier), capped to
`evidenceCap` entries. -/
def evidence (cfg : Config) (f g : List TermId) : List TermId :=
  (List.insertionSort (evidenceOrder cfg f g)
    ((termUniverse f g).filter
      (fun t => decide (0 < min (restrictedWeight cfg f t) (restrictedWeight cfg g t))))).take
    evidenceCap

/-! ### Scorer lemmas: nonnegativity, bounds, symmetry -/

theorem termWeight_nonneg (f : List TermId) (t : TermId) : 0 ≤ termWeight f t := by
  unfold termWeight
  positivity

theorem restrictedWeight_nonneg (cfg : Config) (f : List TermId) (t : TermId) :
    0 ≤ restrictedWeight cfg f t := by
  unfold restrictedWeight
  split
  · exact termWeight_nonneg f t
  · exact le_refl 0

theorem sharedWeight_nonneg (cfg : Config) (f g : List TermId) :
    0 ≤ sharedWeight cfg f g := by
  unfold sharedWeight
  apply List.sum_nonneg
  intro x hx
  obtain ⟨t, _, rfl⟩ := List.mem_map.mp hx
  exact le_min (restrictedWeight_nonneg cfg f t) (restrictedWeight_nonneg cfg g t)

theorem sharedWeight_le_unionWeight (cfg : Config) (f g : List TermId) :
    sharedWeight cfg f g ≤ unionWeight cfg f g := by
  unfold sharedWeight unionWeight
  exact List.sum_le_sum (fun t _ => min_le_max)

theorem unionWeight_nonneg (cfg : Config) (f g : List TermId) :
    0 ≤ unionWeight cfg f g :=
  le_trans (sharedWeight_nonneg cfg f g) (sharedWeight_le_unionWeight cfg f g)

theorem score_nonneg (cfg : Config) (f g : List TermId) : 0 ≤ score cfg f g := by
  unfold score
  split
  · exact le_refl 0
  · exact div_nonneg (sharedWeight_nonneg cfg f g) (unionWeight_nonneg cfg f g)

theorem score_le_one (cfg : Config) (f g : List TermId) : score cfg f g ≤ 1 := by
  unfold score
  split
  · exact zero_le_one
  · rename_i h
    have hpos : 0 < unionWeight cfg f g :=
      lt_of_le_of_ne (unionWeight_nonneg cfg f g) (Ne.symm h)
    exact (div_le_one hpos).mpr (sharedWeight_le_unionWeight cfg f g)

theorem sharedWeight_comm (cfg : Config) (f g : List TermId) :
    sharedWeight cfg f g = sharedWeight cfg g f := by
  unfold sharedWeight
  have hperm : (termUniverse f g).Perm (termUniverse g f) :=
    (@List.perm_append_comm _ f g).dedup
  have hmap :
      ((termUniverse f g).map
        (fun t => min (restrictedWeight cfg f t) (restrictedWeight cfg g t))) =
      ((termUniverse f g).map
        (fun t => min (restrictedWeight cfg g t) (restrictedWeight cfg f t))) := by
    apply List.map_congr_left
    intro t _
    exact min_comm _ _
  rw [hmap]
  exact (hperm.map _).sum_eq

theorem unionWeight_comm (cfg : Config) (f g : List TermId) :
    unionWeight cfg f g = unionWeight cfg g f := by
  unfold unionWeight
  have hperm : (termUniverse f g).Perm (termUniverse g f) :=
    (@List.perm_append_comm _ f g).dedup
  have hmap :
      ((termUniverse f g).map
        (fun t => max (restrictedWeight cfg f t) (restrictedWeight cfg g t))) =
      ((termUniverse f g).map
        (fun t => max (restrictedWeight cfg g t) (restrictedWeight cfg f t))) := by
    apply List.map_congr_left
    intro t _
    exact max_comm _ _
  rw [hmap]
  exact (hperm.map _).sum_eq

theorem score_comm (cfg : Config) (f g : List TermId) :
    score cfg f g = score cfg g f := by
  unfold score
  rw [sharedWeight_comm cfg f g, unionWeight_comm cfg f g]

theorem termWeight_perm {f f' : List TermId} (h : f.Perm f') (t : TermId) :
    termWeight f t = termWeight f' t := by
  unfold termWeight
  rw [h.count_eq]

theorem restrictedWeight_perm (cfg : Config) {f f' : List TermId} (h : f.Perm f')
    (t : TermId) : restrictedWeight cfg f t = restrictedWeight cfg f' t := by
  unfold restrictedWeight
  rw [termWeight_perm h]

theorem score_perm (cfg : Config) {f f' g g' : List TermId} (hf : f.Perm f')
    (hg : g.Perm g') : score cfg f g = score cfg f' g' := by
  have huniv : (termUniverse f g).Perm (termUniverse f' g') :=
    ((hf.append hg)).dedup
  have hshared : sharedWeight cfg f g = sharedWeight cfg f' g' := by
    unfold sharedWeight
    have hmap :
        ((termUniverse f g).map
          (fun t => min (restrictedWeight cfg f t) (restrictedWeight cfg g t))) =
        ((termUniverse f g).map
          (fun t => min (restrictedWeight cfg f' t) (restrictedWeight cfg g' t))) := by
      apply List.map_congr_left
      intro t _
      rw [restrictedWeight_perm cfg hf, restrictedWeight_perm cfg hg]
    rw [hmap]
    exact (huniv.map _).sum_eq
  have hunion : unionWeight cfg f g = unionWeight cfg f' g' := by
    unfold unionWeight
    have hmap :
        ((termUniverse f g).map
          (fun t => max (restrictedWeight cfg f t) (restrictedWeight cfg g t))) =
        ((termUniverse f g).map
          (fun t => max (restrictedWeight cfg f' t) (restrictedWeight cfg g' t))) := by
      apply List.map_congr_left
      intro t _
      rw [restrictedWeight_perm cfg hf, restrictedWeight_perm cfg hg]
    rw [hmap]
    exact (huniv.map _).sum_eq
  unfold score
  rw [hshared, hunion]

/-! ### Candidate Generator (inverted-index / keyword mode), modelled from the spec §4.2 -/

/-- Shared terms of two feature representations: terms with positive weight
in both restricted mappings. -/
def sharedTerms (cfg : Config) (f g : List TermId) : List TermId :=
  (termUniverse f g).filter
    (fun t => decide (0 < min (restrictedWeight cfg f t) (restrictedWeight cfg g t)))

/-- Number of shared terms, the candidate ranking key of the inverted-index
strategy. -/
def sharedTermCount (cfg : Config) (f g : List TermId) : Nat :=
  (sharedTerms cfg f g).length

/-- Deterministic candidate ordering for a base note: shared-term count
descending, candidate note identifier ascending on ties. -/
def candidateOrder (cfg : Config) (self : Note) (m m' : Note) : Prop :=
  sharedTermCount cfg (extract cfg self) (extract cfg m') <
      sharedTermCount cfg (extract cfg self) (extract cfg m) ∨
    (sharedTermCount cfg (extract cfg self) (extract cfg m) =
        sharedTermCount cfg (extract cfg self) (extract cfg m') ∧ m.id ≤ m'.id)

instance candidateOrderDecidable (cfg : Config) (self : Note) :
    DecidableRel (candidateOrder cfg self) := fun m m' => by
  unfold candidateOrder; exact inferInstance

/-- Modelled from the spec §4.2: inverted-index candidate generation — the
candidates of a note are the other notes sharing at least one term above the
minimum weight, capped to the top `maxCandidatesPerNote` by shared-term
count (deterministic ordering). -/
def candidatesFor (cfg : Config) (notes : List Note) (n : Note) : List NoteId :=
  ((List.insertionSort (candidateOrder cfg n)
      ((notes.filter (fun m => decide (m.id ≠ n.id))).filter
        (fun m => decide (0 < sharedTermCount cfg (extract cfg n) (extract cfg m))))).take
    cfg.maxCandidatesPerNote).map (fun m => m.id)

/-- Canonicalized unordered pair of note identifiers (spec §3: e.g.
lexicographically sorted, so that both orientations denote the same
entity). -/
def canonPair (x y : NoteId) : NoteId × NoteId :=
  if x ≤ y then (x, y) else (y, x)

/-- Modelled from the spec §4.2/§3: the candidate pair set of a run — the
canonicalized pairs proposed by any note's candidate list, deduplicated so
each unordered pair is scored once. -/
def candidatePairs (cfg : Config) (notes : List Note) : List (NoteId × NoteId) :=
  (notes.flatMap (fun n => (candidatesFor cfg notes n).map (fun c => canonPair n.id c))).dedup

/-! ### Scored pairs -/

/-- Modelled from the spec §3: a scored candidate pair (canonical unordered
identifier pair, strength, evidence). -/
structure ScoredPair where
  a : Nat
  b : Nat
  strength : ℚ
  evidence : List Nat
deriving DecidableEq, Repr

/-- The unordered-pair key of a scored pair. -/
def ScoredPair.key (p : ScoredPair) : NoteId × NoteId :=
  (p.a, p.b)

/-- Feature representation of a note identifier within a run snapshot (empty
when the identifier resolves to no note). -/
def noteFeatures (cfg : Config) (notes : List Note) (x : NoteId) : List TermId :=
  match notes.find? (fun m => decide (m.id = x)) with
  | some m => extract cfg m
  | none => []

/-- Modelled from the spec §4.3: score one candidate pair with the pure
keyword-mode scorer. -/
def scorePair (cfg : Config) (notes : List Note) (pr : NoteId × NoteId) : ScoredPair :=
  { a := pr.1
    b := pr.2
    strength := score cfg (noteFeatures cfg notes pr.1) (noteFeatures cfg notes pr.2)
    evidence := evidence cfg (noteFeatures cfg notes pr.1) (noteFeatures cfg notes pr.2) }

/-- Modelled from the spec §2 control flow: the scored pair list of a full
run over a note snapshot. -/
def scoredPairs (cfg : Config) (notes : List Note) : List ScoredPair :=
  (candidatePairs cfg notes).map (scorePair cfg notes)

/-! ### Relationship Graph Maintainer, modelled from the spec §4.4 -/

/-- Priority preorder used to rank a note's pairs: strength descending,
ties broken by the canonical pair (its lexicographically smaller identifier
first), never by arrival order. -/
def prio (p q : ScoredPair) : Prop :=
  q.strength < p.strength ∨
    (p.strength = q.strength ∧ (p.a < q.a ∨ (p.a = q.a ∧ p.b ≤ q.b)))

instance prioDecidable : DecidableRel prio := fun p q => by
  unfold prio; exact inferInstance

/-- Strict version of the ranking priority: `strictBetter p q` says `p` is
ranked strictly before `q` (higher strength, or equal strength and
lexicographically smaller canonical pair). -/
def strictBetter (p q : ScoredPair) : Prop :=
  q.strength < p.strength ∨
    (p.strength = q.strength ∧ (p.a < q.a ∨ (p.a = q.a ∧ p.b < q.b)))

instance strictBetterDecidable : DecidableRel strictBetter := fun p q => by
  unfold strictBetter; exact inferInstance

instance prioTotal : IsTotal ScoredPair prio := by
  constructor
  intro p q
  unfold prio
  rcases lt_trichotomy p.strength q.strength with h | h | h
  · right; left; exact h
  · rcases Nat.lt_trichotomy p.a q.a with ha | ha | ha
    · left; right; exact ⟨h, Or.inl ha⟩
    · rcases Nat.le_total p.b q.b with hb | hb
      · left; right; exact ⟨h, Or.inr ⟨ha, hb⟩⟩
      · right; right; exact ⟨h.symm, Or.inr ⟨ha.symm, hb⟩⟩
    · right; right; exact ⟨h.symm, Or.inl ha⟩
  · left; left; exact h

instance prioTrans : IsTrans ScoredPair prio := by
  constructor
  intro p q r hpq hqr
  unfold prio at hpq hqr ⊢
  rcases hpq with h1 | ⟨e1, h1⟩
  · rcases hqr with h2 | ⟨e2, h2⟩
    · exact Or.inl (lt_trans h2 h1)
    · exact Or.inl (e2 ▸ h1)
  · rcases hqr with h2 | ⟨e2, h2⟩
    · exact Or.inl (e1 ▸ h2)
    · exact Or.inr ⟨e1.trans e2, by omega⟩

theorem strictBetter_irrefl (p : ScoredPair) : ¬ strictBetter p p := by
  intro h
  unfold strictBetter at h
  rcases h with h | ⟨_, h⟩
  · exact lt_irrefl _ h
  · omega

theorem strictBetter_asymm {p q : ScoredPair} (h : strictBetter p q) :
    ¬ strictBetter q p := by
  intro h'
  unfold strictBetter at h h'
  rcases h with h | ⟨e, h⟩ <;> rcases h' with h' | ⟨e', h'⟩
  · exact lt_irrefl _ (lt_trans h h')
  · exact absurd h (e' ▸ lt_irrefl _)
  · exact absurd h' (e ▸ lt_irrefl _)
  · omega

theorem strictBetter_of_prio_of_key_ne {p q : ScoredPair} (h : prio p q)
    (hne : p.key ≠ q.key) : strictBetter p q := by
  unfold prio at h
  unfold strictBetter
  have hne' : ¬ (p.a = q.a ∧ p.b = q.b) := by
    intro hc
    exact hne (by unfold ScoredPair.key; rw [hc.1, hc.2])
  rcases h with h | ⟨e, h⟩
  · exact Or.inl h
  · exact Or.inr ⟨e, by omega⟩

/-- Incidence of a scored pair on a note. -/
def incidentTo (x : NoteId) (p : ScoredPair) : Prop :=
  p.a = x ∨ p.b = x

instance incidentToDecidable (x : NoteId) : DecidablePred (incidentTo x) := fun p => by
  unfold incidentTo; exact inferInstance

/-- Modelled from the spec §4.4 step 1: filter scored pairs to strength at
least the similarity threshold. -/
def filterByThreshold (t : ℚ) (l : List ScoredPair) : List ScoredPair :=
  l.filter (fun p => decide (t ≤ p.strength))

/-- Modelled from the spec §4.4 step 2: the top `k` pairs of a note, ranked
by strength with the deterministic canonical-pair tie-break. -/
def topKFor (k : Nat) (l : List ScoredPair) (x : NoteId) : List ScoredPair :=
  (List.insertionSort prio (l.filter (fun p => decide (incidentTo x p)))).take k

/-- Modelled from the spec §4.4 steps 1–3: the committed edge set of a run —
pairs above the threshold that survive the per-note top-K cap of at least
one of their endpoints (union of the per-note kept sets). -/
def committedSet (cfg : Config) (scored : List ScoredPair) : List ScoredPair :=
  (filterByThreshold cfg.similarityThreshold scored).filter (fun p =>
    decide (p ∈ topKFor cfg.maxRelationshipsPerNote
        (filterByThreshold cfg.similarityThreshold scored) p.a ∨
      p ∈ topKFor cfg.maxRelationshipsPerNote
        (filterByThreshold cfg.similarityThreshold scored) p.b))

/-- Modelled from the spec §3: a persisted relationship edge. -/
structure RelationshipEdge where
  a : Nat
  b : Nat
  strength : ℚ
  evidence : List Nat
  runId : Nat
deriving DecidableEq, Repr

/-- The unordered-pair key of a persisted edge. -/
def RelationshipEdge.key (e : RelationshipEdge) : NoteId × NoteId :=
  (e.a, e.b)

/-- Persist a surviving scored pair as an edge row written by a run. -/
def toEdge (runId : Nat) (p : ScoredPair) : RelationshipEdge :=
  ⟨p.a, p.b, p.strength, p.evidence, runId⟩

/-- An edge touches the processed note set when either endpoint was
processed in the run. -/
def touches (processed : List NoteId) (e : RelationshipEdge) : Prop :=
  e.a ∈ processed ∨ e.b ∈ processed

instance touchesDecidable (processed : List NoteId) : DecidablePred (touches processed) :=
  fun e => by unfold touches; exact inferInstance

/-- Modelled from the spec §4.4 steps 4–5: commit — upsert the surviving
pairs as edge rows stamped with the run identifier, and delete every
previously persisted edge touching a processed note that is not in the new
kept set; edges touching no processed note are left untouched (fail-safe). -/
def commit (runId : Nat) (scored : List ScoredPair) (cfg : Config)
    (processed : List NoteId) (prev : List RelationshipEdge) : List RelationshipEdge :=
  (committedSet cfg scored).map (toEdge runId) ++
    prev.filter (fun e => decide (¬ touches processed e))

/-- Modelled from the spec §4.5: a full analysis run over a note snapshot —
every note is processed, the pipeline extract → candidates → score → commit
is executed, and commit's deletion scope is the whole processed set. -/
def runAnalysisFull (cfg : Config) (notes : List Note) (runId : Nat)
    (prev : List RelationshipEdge) : List RelationshipEdge :=
  commit runId (scoredPairs cfg notes) cfg (notes.map (fun n => n.id)) prev

/-! ### Structural lemmas about candidate generation and scoring -/

theorem canonPair_fst_lt_snd {x y : Nat} (h : x ≠ y) :
    (canonPair x y).1 < (canonPair x y).2 := by
  unfold canonPair
  by_cases hxy : x ≤ y
  · rw [if_pos hxy]
    exact lt_of_le_of_ne hxy h
  · rw [if_neg hxy]
    exact Nat.lt_of_not_le hxy

theorem canonPair_fst_mem {x y : Nat} : (canonPair x y).1 = x ∨ (canonPair x y).1 = y := by
  unfold canonPair
  split <;> simp

theorem canonPair_snd_mem {x y : Nat} : (canonPair x y).2 = x ∨ (canonPair x y).2 = y := by
  unfold canonPair
  split <;> simp

theorem mem_candidatesFor {cfg : Config} {notes : List Note} {n : Note} {c : NoteId}
    (h : c ∈ candidatesFor cfg notes n) :
    c ≠ n.id ∧ c ∈ notes.map (fun m => m.id) := by
  unfold candidatesFor at h
  obtain ⟨m, hm, rfl⟩ := List.mem_map.mp h
  have hm1 : m ∈ List.insertionSort (candidateOrder cfg n)
      ((notes.filter (fun m => decide (m.id ≠ n.id))).filter
        (fun m => decide (0 < sharedTermCount cfg (extract cfg n) (extract cfg m)))) :=
    List.mem_of_mem_take hm
  have hm2 := (List.perm_insertionSort (candidateOrder cfg n) _).mem_iff.mp hm1
  have hm3 := (List.mem_filter.mp hm2).1
  obtain ⟨hm4, hm5⟩ := List.mem_filter.mp hm3
  refine ⟨by simpa using hm5, List.mem_map.mpr ⟨m, hm4, rfl⟩⟩

theorem candidatePairs_nodup (cfg : Config) (notes : List Note) :
    (candidatePairs cfg notes).Nodup :=
  List.nodup_dedup _

theorem mem_candidatePairs {cfg : Config} {notes : List Note} {pr : NoteId × NoteId}
    (h : pr ∈ candidatePairs cfg notes) :
    pr.1 < pr.2 ∧ pr.1 ∈ notes.map (fun m => m.id) ∧ pr.2 ∈ notes.map (fun m => m.id) := by
  unfold candidatePairs at h
  obtain ⟨n, hn, hpr⟩ := List.mem_flatMap.mp (List.mem_dedup.mp h)
  obtain ⟨c, hc, rfl⟩ := List.mem_map.mp hpr
  obtain ⟨hne, hcmem⟩ := mem_candidatesFor hc
  have hid : n.id ∈ notes.map (fun m => m.id) := List.mem_map.mpr ⟨n, hn, rfl⟩
  refine ⟨canonPair_fst_lt_snd (Ne.symm hne), ?_, ?_⟩
  · rcases @canonPair_fst_mem n.id c with he | he <;> rw [he]
    · exact hid
    · exact hcmem
  · rcases @canonPair_snd_mem n.id c with he | he <;> rw [he]
    · exact hid
    · exact hcmem

theorem scoredPairs_map_key (cfg : Config) (notes : List Note) :
    (scoredPairs cfg notes).map ScoredPair.key = candidatePairs cfg notes := by
  unfold scoredPairs
  rw [List.map_map]
  have hfun : ScoredPair.key ∘ scorePair cfg notes = id := funext (fun pr => rfl)
  rw [hfun, List.map_id]

theorem scoredPairs_key_nodup (cfg : Config) (notes : List Note) :
    ((scoredPairs cfg notes).map ScoredPair.key).Nodup := by
  rw [scoredPairs_map_key]
  exact candidatePairs_nodup cfg notes

theorem mem_scoredPairs {cfg : Config} {notes : List Note} {p : ScoredPair}
    (h : p ∈ scoredPairs cfg notes) :
    p.a < p.b ∧ p.a ∈ notes.map (fun m => m.id) ∧ p.b ∈ notes.map (fun m => m.id) ∧
      0 ≤ p.strength ∧ p.strength ≤ 1 := by
  unfold scoredPairs at h
  obtain ⟨pr, hpr, rfl⟩ := List.mem_map.mp h
  obtain ⟨h1, h2, h3⟩ := mem_candidatePairs hpr
  exact ⟨h1, h2, h3, score_nonneg _ _ _, score_le_one _ _ _⟩

/-! ### Rank characterization of the deterministic top-K selection -/

theorem mem_take_iff_countP_lt :
    ∀ (s : List ScoredPair) (k : Nat) (p : ScoredPair),
      s.Pairwise strictBetter →
      (p ∈ s.take k ↔ p ∈ s ∧ s.countP (fun q => decide (strictBetter q p)) < k)
  | [], k, p, _ => by simp
  | x :: xs, k, p, hpw => by
    obtain ⟨hx, hxs⟩ := List.pairwise_cons.mp hpw
    cases k with
    | zero => simp
    | succ k =>
      rw [List.take_succ_cons, List.countP_cons]
      by_cases hpx : p = x
      · subst hpx
        have hzero : xs.countP (fun q => decide (strictBetter q p)) = 0 :=
          List.countP_eq_zero.mpr (fun q hq => by
            simpa using strictBetter_asymm (hx q hq))
        have hself : (decide (strictBetter p p)) = false := by
          simpa using strictBetter_irrefl p
        apply iff_of_true (List.mem_cons_self p _)
        refine ⟨List.mem_cons_self p _, ?_⟩
        rw [hzero, hself]
        simp
      · by_cases hpmem : p ∈ xs
        · have hbx : (decide (strictBetter x p)) = true := by
            simpa using hx p hpmem
          have ih := mem_take_iff_countP_lt xs k p hxs
          constructor
          · intro hmem
            have hmem' : p ∈ xs.take k := by
              rcases List.mem_cons.mp hmem with hcase | hcase
              · exact absurd hcase hpx
              · exact hcase
            obtain ⟨_, hcount⟩ := ih.mp hmem'
            refine ⟨List.mem_cons_of_mem x hpmem, ?_⟩
            rw [hbx]
            simpa using Nat.succ_lt_succ hcount
          · intro ⟨_, hcount⟩
            rw [hbx] at hcount
            simp only [if_pos] at hcount
            have hcount' : xs.countP (fun q => decide (strictBetter q p)) < k := by omega
            exact List.mem_cons_of_mem x (ih.mpr ⟨hpmem, hcount'⟩)
        · apply iff_of_false
          · intro hmem
            rcases List.mem_cons.mp hmem with hcase | hcase
            · exact hpx hcase
            · exact hpmem (List.mem_of_mem_take hcase)
          · intro ⟨hmem, _⟩
            rcases List.mem_cons.mp hmem with hcase | hcase
            · exact hpx hcase
            · exact hpmem hcase

theorem pairwise_key_ne_of_nodup {l : List ScoredPair}
    (h : (l.map ScoredPair.key).Nodup) :
    l.Pairwise (fun p q => p.key ≠ q.key) :=
  List.pairwise_map.mp h

/-- Membership in the deterministic per-note top-K list is characterized by
the rank condition: the pair is incident to the note and fewer than `k`
pairs incident to the note are ranked strictly better (higher strength, or
equal strength and lexicographically smaller canonical pair).  The right
hand side mentions no list positions, so membership does not depend on
arrival order. -/
theorem mem_topKFor_iff {k : Nat} {l : List ScoredPair}
    (hnd : (l.map ScoredPair.key).Nodup) (x : NoteId) (p : ScoredPair) :
    p ∈ topKFor k l x ↔
      incidentTo x p ∧ p ∈ l ∧
        (l.filter (fun q => decide (incidentTo x q))).countP
          (fun q => decide (strictBetter q p)) < k := by
  unfold topKFor
  set inc := l.filter (fun q => decide (incidentTo x q)) with hinc
  have hperm : (List.insertionSort prio inc).Perm inc := List.perm_insertionSort prio inc
  have hincnd : (inc.map ScoredPair.key).Nodup :=
    ((List.filter_sublist l).map ScoredPair.key).nodup hnd
  have hincpw : inc.Pairwise (fun p q => p.key ≠ q.key) := pairwise_key_ne_of_nodup hincnd
  have hspw : (List.insertionSort prio inc).Pairwise (fun p q => p.key ≠ q.key) :=
    (List.Perm.pairwise_iff (fun h => Ne.symm h) hperm).mpr hincpw
  have hsorted : (List.insertionSort prio inc).Pairwise prio :=
    List.sorted_insertionSort prio inc
  have hstrict : (List.insertionSort prio inc).Pairwise strictBetter :=
    (hsorted.and hspw).imp (fun h => strictBetter_of_prio_of_key_ne h.1 h.2)
  rw [mem_take_iff_countP_lt _ k p hstrict, hperm.mem_iff, hperm.countP_eq]
  constructor
  · intro ⟨hmem, hcount⟩
    obtain ⟨hl, hx⟩ := List.mem_filter.mp hmem
    exact ⟨by simpa using hx, hl, hcount⟩
  · intro ⟨hx, hl, hcount⟩
    exact ⟨List.mem_filter.mpr ⟨hl, by simpa using hx⟩, hcount⟩

/-! ### Committed-set lemmas -/

theorem mem_filterByThreshold {t : ℚ} {l : List ScoredPair} {p : ScoredPair} :
    p ∈ filterByThreshold t l ↔ p ∈ l ∧ t ≤ p.strength := by
  unfold filterByThreshold
  rw [List.mem_filter]
  simp

theorem filterByThreshold_key_nodup {t : ℚ} {l : List ScoredPair}
    (hnd : (l.map ScoredPair.key).Nodup) :
    ((filterByThreshold t l).map ScoredPair.key).Nodup :=
  ((List.filter_sublist l).map ScoredPair.key).nodup hnd

theorem mem_committedSet_iff {cfg : Config} {scored : List ScoredPair}
    (hnd : (scored.map ScoredPair.key).Nodup) (p : ScoredPair) :
    p ∈ committedSet cfg scored ↔
      p ∈ scored ∧ cfg.similarityThreshold ≤ p.strength ∧
        (((filterByThreshold cfg.similarityThreshold scored).filter
              (fun q => decide (incidentTo p.a q))).countP
            (fun q => decide (strictBetter q p)) < cfg.maxRelationshipsPerNote ∨
          ((filterByThreshold cfg.similarityThreshold scored).filter
              (fun q => decide (incidentTo p.b q))).countP
            (fun q => decide (strictBetter q p)) < cfg.maxRelationshipsPerNote) := by
  have hfnd := @filterByThreshold_key_nodup cfg.similarityThreshold scored hnd
  unfold committedSet
  rw [List.mem_filter, decide_eq_true_eq, mem_topKFor_iff hfnd, mem_topKFor_iff hfnd,
    mem_filterByThreshold]
  constructor
  · rintro ⟨⟨hs, ht⟩, hor⟩
    refine ⟨hs, ht, ?_⟩
    rcases hor with h | h
    · exact Or.inl h.2.2
    · exact Or.inr h.2.2
  · rintro ⟨hs, ht, hor⟩
    refine ⟨⟨hs, ht⟩, ?_⟩
    rcases hor with h | h
    · exact Or.inl ⟨Or.inl rfl, ⟨hs, ht⟩, h⟩
    · exact Or.inr ⟨Or.inr rfl, ⟨hs, ht⟩, h⟩

theorem committedSet_sublist (cfg : Config) (scored : List ScoredPair) :
    (committedSet cfg scored).Sublist scored :=
  (List.filter_sublist _).trans (List.filter_sublist scored)

theorem committedSet_key_nodup {cfg : Config} {scored : List ScoredPair}
    (hnd : (scored.map ScoredPair.key).Nodup) :
    ((committedSet cfg scored).map ScoredPair.key).Nodup :=
  ((committedSet_sublist cfg scored).map ScoredPair.key).nodup hnd

theorem strength_le_of_strictBetter {p q : ScoredPair} (h : strictBetter q p) :
    p.strength ≤ q.strength := by
  unfold strictBetter at h
  rcases h with h | ⟨e, _⟩
  · exact le_of_lt h
  · exact le_of_eq e.symm

theorem countP_better_filter_threshold (scored : List ScoredPair) (x : NoteId)
    (p : ScoredPair) {t1 t2 : ℚ} (h12 : t1 ≤ t2) (hp : t2 ≤ p.strength) :
    ((filterByThreshold t1 scored).filter (fun q => decide (incidentTo x q))).countP
        (fun q => decide (strictBetter q p)) =
      ((filterByThreshold t2 scored).filter (fun q => decide (incidentTo x q))).countP
        (fun q => decide (strictBetter q p)) := by
  unfold filterByThreshold
  rw [List.countP_filter, List.countP_filter, List.countP_filter, List.countP_filter]
  apply List.countP_congr
  intro q _
  simp only [Bool.and_eq_true, decide_eq_true_eq]
  constructor
  · rintro ⟨⟨hsb, hincq⟩, _⟩
    exact ⟨⟨hsb, hincq⟩, le_trans hp (strength_le_of_strictBetter hsb)⟩
  · rintro ⟨⟨hsb, hincq⟩, ht⟩
    exact ⟨⟨hsb, hincq⟩, le_trans h12 ht⟩

theorem mem_topKFor_threshold_mono {scored : List ScoredPair}
    (hnd : (scored.map ScoredPair.key).Nodup) {k : Nat} {t1 t2 : ℚ} (h12 : t1 ≤ t2)
    {x : NoteId} {p : ScoredPair}
    (hmem : p ∈ topKFor k (filterByThreshold t2 scored) x) :
    p ∈ topKFor k (filterByThreshold t1 scored) x := by
  have hnd2 := @filterByThreshold_key_nodup t2 scored hnd
  have hnd1 := @filterByThreshold_key_nodup t1 scored hnd
  rw [mem_topKFor_iff hnd2] at hmem
  obtain ⟨hinc, hpf, hcount⟩ := hmem
  obtain ⟨hps, hpt⟩ := mem_filterByThreshold.mp hpf
  rw [mem_topKFor_iff hnd1]
  refine ⟨hinc, mem_filterByThreshold.mpr ⟨hps, le_trans h12 hpt⟩, ?_⟩
  rw [countP_better_filter_threshold scored x p h12 hpt]
  exact hcount

theorem committedSet_threshold_sublist {cfg1 cfg2 : Config}
    (hK : cfg1.maxRelationshipsPerNote = cfg2.maxRelationshipsPerNote)
    (ht : cfg1.similarityThreshold ≤ cfg2.similarityThreshold)
    {scored : List ScoredPair} (hnd : (scored.map ScoredPair.key).Nodup) :
    (committedSet cfg2 scored).Sublist (committedSet cfg1 scored) := by
  unfold committedSet filterByThreshold
  rw [List.filter_filter, List.filter_filter]
  apply List.monotone_filter_right
  intro p hp
  simp only [Bool.and_eq_true, decide_eq_true_eq] at hp ⊢
  obtain ⟨hkept, hthr⟩ := hp
  refine ⟨?_, le_trans ht hthr⟩
  rcases hkept with h | h
  · exact Or.inl (hK ▸ mem_topKFor_threshold_mono hnd ht h)
  · exact Or.inr (hK ▸ mem_topKFor_threshold_mono hnd ht h)

/-! ### Commit lemmas -/

theorem mem_committedSet_scored {cfg : Config} {notes : List Note} {p : ScoredPair}
    (h : p ∈ committedSet cfg (scoredPairs cfg notes)) :
    p.a < p.b ∧ p.a ∈ notes.map (fun m => m.id) ∧ p.b ∈ notes.map (fun m => m.id) ∧
      0 ≤ p.strength ∧ p.strength ≤ 1 :=
  mem_scoredPairs ((committedSet_sublist cfg (scoredPairs cfg notes)).mem h)

theorem commit_second_run (runId1 runId2 : Nat) (scored : List ScoredPair)
    (cfg : Config) (processed : List NoteId) (prev : List RelationshipEdge)
    (hproc : ∀ p ∈ committedSet cfg scored, p.a ∈ processed) :
    commit runId2 scored cfg processed (commit runId1 scored cfg processed prev) =
      (committedSet cfg scored).map (toEdge runId2) ++
        prev.filter (fun e => decide (¬ touches processed e)) := by
  unfold commit
  rw [List.filter_append]
  have h1 : ((committedSet cfg scored).map (toEdge runId1)).filter
      (fun e => decide (¬ touches processed e)) = [] := by
    rw [List.filter_eq_nil_iff]
    intro e he
    obtain ⟨p, hp, rfl⟩ := List.mem_map.mp he
    simp only [decide_eq_true_eq, not_not, Decidable.not_not]
    exact Or.inl (hproc p hp)
  have h2 : (prev.filter (fun e => decide (¬ touches processed e))).filter
      (fun e => decide (¬ touches processed e)) =
      prev.filter (fun e => decide (¬ touches processed e)) := by
    rw [List.filter_filter]
    apply List.filter_congr
    intro e _
    exact Bool.and_self _
  rw [h1, h2, List.nil_append]

/-! ### Analysis Orchestrator, modelled from the spec §4.5, §5 and §7 -/

/-- Modelled from the spec §3/§4.5: the status of an analysis run. -/
inductive RunStatus
  | running
  | completed
  | completedWithDegradation
  | failed
deriving DecidableEq, Repr

/-- Modelled from the spec §7: the error taxonomy of the core. -/
inductive CoreError
  | invalidInput
  | providerUnavailable
  | indexUnavailable
  | storageUnavailable
  | runAlreadyInProgress
deriving DecidableEq, Repr

/-- Modelled from the spec §7: availability of the non-local infrastructure
(candidate index, persisted graph storage) during a run. -/
structure Env where
  indexAvailable : Bool
  storageAvailable : Bool
deriving DecidableEq, Repr

/-- Modelled from the spec §4.5/§7: one full analysis run under an
infrastructure environment — `IndexUnavailable` or `StorageUnavailable` is
non-recoverable and aborts the run as `failed` before any commit, leaving
the persisted state untouched; otherwise the pipeline commits and the run
completes. -/
def runOnce (env : Env) (cfg : Config) (notes : List Note) (runId : Nat)
    (st : List RelationshipEdge) : RunStatus × List RelationshipEdge :=
  if env.indexAvailable = false then (RunStatus.failed, st)
  else if env.storageAvailable = false then (RunStatus.failed, st)
  else (RunStatus.completed, runAnalysisFull cfg notes runId st)

/-- Modelled from the spec §3/§5: workspace-scoped analysis state — the
persisted edges and the run-scoped lock (the identifier of the run currently
in status `running`, if any). -/
structure WorkspaceState where
  edges : List RelationshipEdge
  activeRun : Option Nat
deriving DecidableEq, Repr

/-- Modelled from the spec §4.5/§5/§6: `triggerAnalysis` — if a run is
currently `running` for the workspace the trigger fails fast with
`RunAlreadyInProgress` (no queuing, state unchanged); otherwise the lock is
acquired, the run executes, the lock is released and the run status is
returned. -/
def triggerAnalysis (env : Env) (cfg : Config) (notes : List Note) (runId : Nat)
    (ws : WorkspaceState) : WorkspaceState × Except CoreError RunStatus :=
  if ws.activeRun.isSome then (ws, Except.error CoreError.runAlreadyInProgress)
  else
    ({ edges := (runOnce env cfg notes runId ws.edges).2, activeRun := none },
      Except.ok (runOnce env cfg notes runId ws.edges).1)

/-! ### Graph Query Assembler, modelled from the spec §4.6 with the response
field names documented in the README and consumed by the client -/

/-- Node payload of the `/api/graph` response (README: `id`, `label`,
`content`, `group`); the content text is outside the abstracted token
model. -/
structure GraphNodeDto where
  id : Nat
  label : String
  group : Nat
deriving DecidableEq, Repr

/-- Link payload of the `/api/graph` response (README: `source`, `target`,
`type`, `value`); `value` may be absent. -/
structure GraphLinkDto where
  source : Nat
  target : Nat
  type : String
  value : Option ℚ
deriving DecidableEq, Repr

/-- Value of one field of the `/api/graph` response object. -/
inductive GraphFieldValue
  | nodesValue (ns : List GraphNodeDto)
  | linksValue (ls : List GraphLinkDto)
deriving DecidableEq, Repr

/-- Modelled from the spec §5: server state seen by the query assembler —
the note snapshot and committed edges, together with the scratch state of an
in-progress analysis run, which readers never observe (snapshot-read
discipline). -/
structure ServerState where
  notes : List Note
  committedEdges : List RelationshipEdge
  runInProgress : Option Nat
  scratch : List ScoredPair
deriving DecidableEq, Repr

/-- Node payload of a note. -/
def toNodeDto (n : Note) : GraphNodeDto :=
  { id := n.id, label := n.title, group := 1 }

/-- Link payload of a committed edge. -/
def toLinkDto (e : RelationshipEdge) : GraphLinkDto :=
  { source := e.a, target := e.b, type := "shared_topics", value := some e.strength }

/-- Modelled from the spec §4.6 and the README/client: `getGraph` — the
read-only `/api/graph` response, a JSON object whose fields are `nodes` and
`links`, built solely from the committed state. -/
def getGraph (s : ServerState) : List (String × GraphFieldValue) :=
  [("nodes", GraphFieldValue.nodesValue (s.notes.map toNodeDto)),
    ("links", GraphFieldValue.linksValue (s.committedEdges.map toLinkDto))]

/-! ### Client-side translations -/

/-- Whole-graph `/api/graph` response as the client consumes it
(`response.data.nodes`, `response.data.links`). -/
structure GraphResponse where
  nodes : List GraphNodeDto
  links : List GraphLinkDto
deriving DecidableEq, Repr

/-- Translated from `src/app/client/src/views/SimpleImportView.js`: the
results object displayed after a successful import. -/
structure ImportResults where
  importedCount : Nat
  relationships : Nat
deriving DecidableEq, Repr

/-- Translated from `SimpleImportView.js` (`processContent`, lines 98–105 and
126–133): after import and analyze, the displayed results are taken from a
fresh GET of `/api/graph` — `importedCount` is `response.data.nodes.length`
and `relationships` is `response.data.links.length`. -/
def processContent (graphResponse : GraphResponse) : ImportResults :=
  { importedCount := graphResponse.nodes.length
    relationships := graphResponse.links.length }

/-- Translated from `SimpleGraphView.js` line 152: JavaScript `x || d` on an
optional numeric field — the default replaces an absent value, a null value
and the falsy number 0. -/
def jsOrDefault (v : Option ℚ) (d : ℚ) : ℚ :=
  match v with
  | none => d
  | some x => if x = 0 then d else x

/-- Translated from `SimpleGraphView.js` (`processGraphData`, line 152): the
rendered edge width `1 + (link.value || 0.5) * 5`. -/
def edgeWidth (value : Option ℚ) : ℚ :=
  1 + jsOrDefault value (1 / 2) * 5

/-- Edge produced by `processGraphData` for vis-network (the fields the
width claim concerns: positional identifier, endpoints, width). -/
structure VisEdge where
  idx : Nat
  source : Nat
  target : Nat
  width : ℚ
deriving DecidableEq, Repr

/-- Translated from `SimpleGraphView.js` (`processGraphData`, lines
146–177): every link of the response is mapped, with its position, to a
vis-network edge whose width is `1 + (link.value || 0.5) * 5`. -/
def processGraphDataEdges (links : List GraphLinkDto) : List VisEdge :=
  links.enum.map (fun pr =>
    { idx := pr.1, source := pr.2.source, target := pr.2.target,
      width := edgeWidth pr.2.value })

theorem snd_mem_of_mem_enumFrom {α : Type} :
    ∀ (l : List α) (n : Nat) (pr : Nat × α), pr ∈ l.enumFrom n → pr.2 ∈ l
  | [], _, _, h => by simp at h
  | x :: xs, n, pr, h => by
    rw [List.enumFrom_cons] at h
    rcases List.mem_cons.mp h with h | h
    · subst h
      exact List.mem_cons_self x xs
    · exact List.mem_cons_of_mem x (snd_mem_of_mem_enumFrom xs (n + 1) pr h)

theorem snd_mem_of_mem_enum {α : Type} {l : List α} {pr : Nat × α}
    (h : pr ∈ l.enum) : pr.2 ∈ l :=
  snd_mem_of_mem_enumFrom l 0 pr h

/-! ### Sample values used by witnesses -/

/-- Sample configuration for concrete witnesses. -/
def sampleConfig : Config :=
  ⟨1 / 2, 1, 5, 0, []⟩

/-- Sample scored pair for concrete witnesses. -/
def samplePair : ScoredPair :=
  ⟨1, 2, 1, []⟩

/-! ### Claim theorems -/

/-- C1: for a fixed note set and fixed configuration, running the full
analysis twice in succession yields an identical persisted edge set after
the second run as after the first — the same unordered note-identifier pairs
with the same strengths (run identifiers stamped on the rows may differ; the
pair/strength view of the persisted state is identical). -/
theorem analysis_idempotent (cfg : Config) (notes : List Note) (r1 r2 : Nat)
    (prev : List RelationshipEdge) :
    (runAnalysisFull cfg notes r2 (runAnalysisFull cfg notes r1 prev)).map
        (fun e => (e.a, e.b, e.strength)) =
      (runAnalysisFull cfg notes r1 prev).map (fun e => (e.a, e.b, e.strength)) := by
  unfold runAnalysisFull
  rw [commit_second_run r1 r2 (scoredPairs cfg notes) cfg (notes.map fun n => n.id) prev
    (fun p hp => (mem_committedSet_scored hp).2.1)]
  unfold commit
  rw [List.map_append, List.map_append, List.map_map, List.map_map]
  rfl

/-- C2: commit persists exactly the scored pairs whose strength reaches the
similarity threshold and that are in the per-note top
`maxRelationshipsPerNote` list of at least one of their two endpoints.  The
per-note list is characterized by rank: a pair is kept at a note precisely
when fewer than `maxRelationshipsPerNote` incident above-threshold pairs are
ranked strictly better (strength descending, ties broken by the
lexicographically smaller canonical pair).  The characterization mentions no
list positions, and membership in the committed set is invariant under
permutation of the scored-pair list, so selection never depends on arrival
order. -/
theorem commit_exactly_topK (cfg : Config) (scored : List ScoredPair)
    (hnd : (scored.map ScoredPair.key).Nodup) (p : ScoredPair) :
    (p ∈ committedSet cfg scored ↔
      p ∈ scored ∧ cfg.similarityThreshold ≤ p.strength ∧
        (((filterByThreshold cfg.similarityThreshold scored).filter
              (fun q => decide (incidentTo p.a q))).countP
            (fun q => decide (strictBetter q p)) < cfg.maxRelationshipsPerNote ∨
          ((filterByThreshold cfg.similarityThreshold scored).filter
              (fun q => decide (incidentTo p.b q))).countP
            (fun q => decide (strictBetter q p)) < cfg.maxRelationshipsPerNote)) ∧
    (∀ scored' : List ScoredPair, scored.Perm scored' →
      (p ∈ committedSet cfg scored ↔ p ∈ committedSet cfg scored')) := by
  refine ⟨mem_committedSet_iff hnd p, ?_⟩
  intro scored' hperm
  have hnd' : (scored'.map ScoredPair.key).Nodup :=
    ((hperm.map ScoredPair.key).nodup_iff).mp hnd
  rw [mem_committedSet_iff hnd p, mem_committedSet_iff hnd' p]
  have hfil : ∀ x : NoteId,
      ((filterByThreshold cfg.similarityThreshold scored).filter
          (fun q => decide (incidentTo x q))).countP
        (fun q => decide (strictBetter q p)) =
      ((filterByThreshold cfg.similarityThreshold scored').filter
          (fun q => decide (incidentTo x q))).countP
        (fun q => decide (strictBetter q p)) := by
    intro x
    exact ((hperm.filter _).filter _).countP_eq _
  rw [hperm.mem_iff, hfil p.a, hfil p.b]

/-- Witness for C2 at a concrete scored-pair list. -/
theorem commit_exactly_topK_witness :
    (([samplePair].map ScoredPair.key)).Nodup ∧
    ((samplePair ∈ committedSet sampleConfig [samplePair] ↔
      samplePair ∈ [samplePair] ∧
        sampleConfig.similarityThreshold ≤ samplePair.strength ∧
        (((filterByThreshold sampleConfig.similarityThreshold [samplePair]).filter
              (fun q => decide (incidentTo samplePair.a q))).countP
            (fun q => decide (strictBetter q samplePair)) <
            sampleConfig.maxRelationshipsPerNote ∨
          ((filterByThreshold sampleConfig.similarityThreshold [samplePair]).filter
              (fun q => decide (incidentTo samplePair.b q))).countP
            (fun q => decide (strictBetter q samplePair)) <
            sampleConfig.maxRelationshipsPerNote)) ∧
    (∀ scored' : List ScoredPair, ([samplePair] : List ScoredPair).Perm scored' →
      (samplePair ∈ committedSet sampleConfig [samplePair] ↔
        samplePair ∈ committedSet sampleConfig scored'))) :=
  ⟨by decide, commit_exactly_topK sampleConfig [samplePair] (by decide) samplePair⟩

/-- C5: after an analysis run, every persisted relationship edge has two
distinct note identifiers (no self-loops), is stored canonically with the
smaller identifier first (so each unordered pair appears at most once —
the pair keys are pairwise distinct), and carries a strength in [0, 1];
assuming the previous persisted state already satisfied these invariants. -/
theorem edge_invariants (cfg : Config) (notes : List Note) (runId : Nat)
    (prev : List RelationshipEdge)
    (hcanon : ∀ e ∈ prev, e.a < e.b)
    (hkeys : (prev.map RelationshipEdge.key).Nodup)
    (hstr : ∀ e ∈ prev, 0 ≤ e.strength ∧ e.strength ≤ 1) :
    (∀ e ∈ runAnalysisFull cfg notes runId prev, e.a ≠ e.b) ∧
    (∀ e ∈ runAnalysisFull cfg notes runId prev, e.a < e.b) ∧
    ((runAnalysisFull cfg notes runId prev).map RelationshipEdge.key).Nodup ∧
    (∀ e ∈ runAnalysisFull cfg notes runId prev, 0 ≤ e.strength ∧ e.strength ≤ 1) := by
  have hlt : ∀ e ∈ runAnalysisFull cfg notes runId prev, e.a < e.b := by
    intro e he
    unfold runAnalysisFull commit at he
    rcases List.mem_append.mp he with h | h
    · obtain ⟨p, hp, rfl⟩ := List.mem_map.mp h
      exact (mem_committedSet_scored hp).1
    · exact hcanon e (List.mem_filter.mp h).1
  refine ⟨fun e he => Nat.ne_of_lt (hlt e he), hlt, ?_, ?_⟩
  · unfold runAnalysisFull commit
    rw [List.map_append, List.map_map]
    have hm : RelationshipEdge.key ∘ toEdge runId = ScoredPair.key :=
      funext fun p => rfl
    rw [hm]
    apply List.Nodup.append
    · exact committedSet_key_nodup (scoredPairs_key_nodup cfg notes)
    · exact ((List.filter_sublist prev).map RelationshipEdge.key).nodup hkeys
    · intro k hk1 hk2
      obtain ⟨p, hp, rfl⟩ := List.mem_map.mp hk1
      obtain ⟨e, he, hke⟩ := List.mem_map.mp hk2
      have hpa : p.a ∈ notes.map (fun m => m.id) := (mem_committedSet_scored hp).2.1
      have hee := List.mem_filter.mp he
      have hnt : ¬ touches (notes.map fun n => n.id) e := by simpa using hee.2
      unfold touches at hnt
      push_neg at hnt
      have hea : e.a = p.a := congrArg Prod.fst hke
      exact hnt.1 (by rw [hea]; exact hpa)
  · intro e he
    unfold runAnalysisFull commit at he
    rcases List.mem_append.mp he with h | h
    · obtain ⟨p, hp, rfl⟩ := List.mem_map.mp h
      exact (mem_committedSet_scored hp).2.2.2
    · exact hstr e (List.mem_filter.mp h).1

/-- Witness for C5 at a concrete (empty) previous state and note set. -/
theorem edge_invariants_witness :
    ((∀ e ∈ ([] : List RelationshipEdge), e.a < e.b) ∧
      (([] : List RelationshipEdge).map RelationshipEdge.key).Nodup ∧
      (∀ e ∈ ([] : List RelationshipEdge), 0 ≤ e.strength ∧ e.strength ≤ 1)) ∧
    ((∀ e ∈ runAnalysisFull sampleConfig [] 0 [], e.a ≠ e.b) ∧
      (∀ e ∈ runAnalysisFull sampleConfig [] 0 [], e.a < e.b) ∧
      ((runAnalysisFull sampleConfig [] 0 []).map RelationshipEdge.key).Nodup ∧
      (∀ e ∈ runAnalysisFull sampleConfig [] 0 [], 0 ≤ e.strength ∧ e.strength ≤ 1)) :=
  ⟨⟨by simp, by simp, by simp⟩,
    edge_invariants sampleConfig [] 0 [] (by simp) (by simp) (by simp)⟩

/-- C6: for a fixed note set and otherwise fixed configuration, raising the
similarity threshold never increases the number of edges committed by a full
analysis run. -/
theorem threshold_monotone (notes : List Note) (K mc : Nat) (mw : ℚ)
    (sw : List TermId) (t1 t2 : ℚ) (h : t1 ≤ t2) (r : Nat) :
    (runAnalysisFull ⟨t2, K, mc, mw, sw⟩ notes r []).length ≤
      (runAnalysisFull ⟨t1, K, mc, mw, sw⟩ notes r []).length := by
  have hsc : scoredPairs (⟨t2, K, mc, mw, sw⟩ : Config) notes =
      scoredPairs (⟨t1, K, mc, mw, sw⟩ : Config) notes := rfl
  have hsub : (committedSet ⟨t2, K, mc, mw, sw⟩
      (scoredPairs ⟨t2, K, mc, mw, sw⟩ notes)).Sublist
      (committedSet ⟨t1, K, mc, mw, sw⟩ (scoredPairs ⟨t1, K, mc, mw, sw⟩ notes)) := by
    rw [hsc]
    exact @committedSet_threshold_sublist ⟨t1, K, mc, mw, sw⟩ ⟨t2, K, mc, mw, sw⟩
      rfl h _ (scoredPairs_key_nodup _ _)
  unfold runAnalysisFull commit
  simp only [List.filter_nil, List.append_nil, List.length_map]
  exact hsub.length_le

/-- Witness for C6 at concrete thresholds 0 ≤ 1/2. -/
theorem threshold_monotone_witness :
    (0 : ℚ) ≤ 1 / 2 ∧
      (runAnalysisFull ⟨1 / 2, 1, 5, 0, []⟩ [] 0 []).length ≤
        (runAnalysisFull ⟨0, 1, 5, 0, []⟩ [] 0 []).length :=
  ⟨by norm_num, threshold_monotone [] 1 5 0 [] 0 (1 / 2) (by norm_num) 0⟩

/-- C7: the keyword-mode scorer is pure and symmetric — the strength is
unchanged when the two feature representations are swapped and when either
representation is permuted (no dependence on processing order), and every
pair in the committed edge set carries exactly the scorer's strength for its
two endpoints, in either orientation. -/
theorem scorer_symmetric (cfg : Config) (notes : List Note)
    (f g f' g' : List TermId) (hf : f.Perm f') (hg : g.Perm g') :
    score cfg f g = score cfg g f ∧
    score cfg f g = score cfg f' g' ∧
    (∀ p ∈ committedSet cfg (scoredPairs cfg notes),
      p.strength = score cfg (noteFeatures cfg notes p.a) (noteFeatures cfg notes p.b) ∧
      p.strength = score cfg (noteFeatures cfg notes p.b) (noteFeatures cfg notes p.a)) := by
  refine ⟨score_comm cfg f g, score_perm cfg hf hg, ?_⟩
  intro p hp
  have hps := (committedSet_sublist cfg (scoredPairs cfg notes)).mem hp
  unfold scoredPairs at hps
  obtain ⟨pr, hpr, rfl⟩ := List.mem_map.mp hps
  exact ⟨rfl, score_comm cfg (noteFeatures cfg notes pr.1) (noteFeatures cfg notes pr.2)⟩

/-- Witness for C7 at concrete token lists with `[1, 2] ~ [2, 1]`. -/
theorem scorer_symmetric_witness :
    (([1, 2] : List TermId).Perm [2, 1] ∧ ([3] : List TermId).Perm [3]) ∧
    (score sampleConfig [1, 2] [3] = score sampleConfig [3] [1, 2] ∧
      score sampleConfig [1, 2] [3] = score sampleConfig [2, 1] [3] ∧
      (∀ p ∈ committedSet sampleConfig (scoredPairs sampleConfig []),
        p.strength = score sampleConfig (noteFeatures sampleConfig [] p.a)
            (noteFeatures sampleConfig [] p.b) ∧
        p.strength = score sampleConfig (noteFeatures sampleConfig [] p.b)
            (noteFeatures sampleConfig [] p.a))) :=
  ⟨⟨by decide, by decide⟩,
    scorer_symmetric sampleConfig [] [1, 2] [3] [2, 1] [3] (by decide) (by decide)⟩

/-- C3: a non-recoverable error (index or storage unavailable) makes the
run end in status `failed` with no partial edge state written — the
persisted graph after the run is exactly the previous fully-committed
state. -/
theorem failed_run_writes_nothing (env : Env) (cfg : Config) (notes : List Note)
    (runId : Nat) (st : List RelationshipEdge)
    (h : env.indexAvailable = false ∨ env.storageAvailable = false) :
    (runOnce env cfg notes runId st).1 = RunStatus.failed ∧
      (runOnce env cfg notes runId st).2 = st := by
  unfold runOnce
  rcases h with h | h
  · rw [if_pos h]
    exact ⟨rfl, rfl⟩
  · by_cases hi : env.indexAvailable = false
    · rw [if_pos hi]
      exact ⟨rfl, rfl⟩
    · rw [if_neg hi, if_pos h]
      exact ⟨rfl, rfl⟩

/-- Witness for C3 with the index unavailable. -/
theorem failed_run_writes_nothing_witness :
    ((Env.mk false true).indexAvailable = false ∨
      (Env.mk false true).storageAvailable = false) ∧
    ((runOnce ⟨false, true⟩ sampleConfig [] 0 []).1 = RunStatus.failed ∧
      (runOnce ⟨false, true⟩ sampleConfig [] 0 []).2 = []) :=
  ⟨Or.inl rfl, failed_run_writes_nothing ⟨false, true⟩ sampleConfig [] 0 [] (Or.inl rfl)⟩

/-- C4: `triggerAnalysis` fails with `RunAlreadyInProgress` exactly when a
run is currently in status `running` for the workspace at the time of the
trigger, and a rejected trigger queues nothing and leaves the workspace
state unchanged. -/
theorem trigger_rejects_iff_running (env : Env) (cfg : Config) (notes : List Note)
    (runId : Nat) (ws : WorkspaceState) :
    ((triggerAnalysis env cfg notes runId ws).2 =
        Except.error CoreError.runAlreadyInProgress ↔ ws.activeRun.isSome = true) ∧
    ((triggerAnalysis env cfg notes runId ws).2 =
        Except.error CoreError.runAlreadyInProgress →
      (triggerAnalysis env cfg notes runId ws).1 = ws) := by
  unfold triggerAnalysis
  by_cases h : ws.activeRun.isSome
  · rw [if_pos h]
    exact ⟨⟨fun _ => h, fun _ => rfl⟩, fun _ => rfl⟩
  · rw [if_neg h]
    refine ⟨⟨fun hc => absurd hc (by simp), fun hc => absurd hc h⟩,
      fun hc => absurd hc (by simp)⟩

/-- Witness for C4 at a workspace with a running analysis. -/
theorem trigger_rejects_iff_running_witness :
    ((triggerAnalysis ⟨true, true⟩ sampleConfig [] 1 ⟨[], some 0⟩).2 =
        Except.error CoreError.runAlreadyInProgress ↔
      (WorkspaceState.mk [] (some 0)).activeRun.isSome = true) ∧
    ((triggerAnalysis ⟨true, true⟩ sampleConfig [] 1 ⟨[], some 0⟩).2 =
        Except.error CoreError.runAlreadyInProgress →
      (triggerAnalysis ⟨true, true⟩ sampleConfig [] 1 ⟨[], some 0⟩).1 = ⟨[], some 0⟩) :=
  trigger_rejects_iff_running ⟨true, true⟩ sampleConfig [] 1 ⟨[], some 0⟩

/-- C8 counterexample: the `/api/graph` response object has no field named
`edges` — its fields are `nodes` and `links` (as the README documents and
the client consumes), so the claim that `getGraph` returns an object with
fields `nodes` and `edges` fails already on the empty server state. -/
theorem getGraph_no_edges_field :
    (getGraph ⟨[], [], none, []⟩).lookup "edges" = none ∧
    (getGraph ⟨[], [], none, []⟩).lookup "nodes" =
      some (GraphFieldValue.nodesValue []) ∧
    (getGraph ⟨[], [], none, []⟩).lookup "links" =
      some (GraphFieldValue.linksValue []) :=
  ⟨rfl, rfl, rfl⟩

/-- C8 (amended): for every workspace state and at every time — in
particular while an analysis run is in progress, whatever its scratch
state — `getGraph` returns an object with fields `nodes` and `links`
reflecting exactly the latest fully committed graph state. -/
theorem getGraph_committed_snapshot (notes : List Note)
    (edges : List RelationshipEdge) (run1 run2 : Option Nat)
    (scr1 scr2 : List ScoredPair) :
    getGraph ⟨notes, edges, run1, scr1⟩ = getGraph ⟨notes, edges, run2, scr2⟩ ∧
    (getGraph ⟨notes, edges, run1, scr1⟩).lookup "nodes" =
      some (GraphFieldValue.nodesValue (notes.map toNodeDto)) ∧
    (getGraph ⟨notes, edges, run1, scr1⟩).lookup "links" =
      some (GraphFieldValue.linksValue (edges.map toLinkDto)) :=
  ⟨rfl, rfl, rfl⟩

/-- C9: after a successful import, `processContent` fills the displayed
results from a fresh GET of `/api/graph`: `importedCount` is the total
number of nodes of the whole graph and `relationships` the total number of
links — so the displayed results depend only on the totals of the fetched
graph, never on how many notes or relationships that particular import
added. -/
theorem import_results_are_totals (g h : GraphResponse)
    (hn : g.nodes.length = h.nodes.length) (hl : g.links.length = h.links.length) :
    (processContent g).importedCount = g.nodes.length ∧
    (processContent g).relationships = g.links.length ∧
    processContent g = processContent h := by
  refine ⟨rfl, rfl, ?_⟩
  unfold processContent
  rw [hn, hl]

/-- Witness for C9: two different three-node graph responses with equal
totals display identical results. -/
theorem import_results_are_totals_witness :
    ((GraphResponse.mk [⟨1, "a", 1⟩, ⟨2, "b", 1⟩, ⟨3, "c", 1⟩] []).nodes.length =
        (GraphResponse.mk [⟨4, "d", 1⟩, ⟨5, "e", 1⟩, ⟨6, "f", 1⟩] []).nodes.length ∧
      (GraphResponse.mk [⟨1, "a", 1⟩, ⟨2, "b", 1⟩, ⟨3, "c", 1⟩] []).links.length =
        (GraphResponse.mk [⟨4, "d", 1⟩, ⟨5, "e", 1⟩, ⟨6, "f", 1⟩] []).links.length) ∧
    ((processContent ⟨[⟨1, "a", 1⟩, ⟨2, "b", 1⟩, ⟨3, "c", 1⟩], []⟩).importedCount =
        (GraphResponse.mk [⟨1, "a", 1⟩, ⟨2, "b", 1⟩, ⟨3, "c", 1⟩] []).nodes.length ∧
      (processContent ⟨[⟨1, "a", 1⟩, ⟨2, "b", 1⟩, ⟨3, "c", 1⟩], []⟩).relationships =
        (GraphResponse.mk [⟨1, "a", 1⟩, ⟨2, "b", 1⟩, ⟨3, "c", 1⟩] []).links.length ∧
      processContent ⟨[⟨1, "a", 1⟩, ⟨2, "b", 1⟩, ⟨3, "c", 1⟩], []⟩ =
        processContent ⟨[⟨4, "d", 1⟩, ⟨5, "e", 1⟩, ⟨6, "f", 1⟩], []⟩) :=
  ⟨⟨rfl, rfl⟩,
    import_results_are_totals ⟨[⟨1, "a", 1⟩, ⟨2, "b", 1⟩, ⟨3, "c", 1⟩], []⟩
      ⟨[⟨4, "d", 1⟩, ⟨5, "e", 1⟩, ⟨6, "f", 1⟩], []⟩ rfl rfl⟩

/-- C10: `processGraphData` gives every produced edge the width
`1 + (link.value || 0.5) * 5`; for a value in (0, 1] the width lies in
(1, 6], while a value of 0, null or missing yields width 3.5 — an edge of
strength exactly 0 is rendered identically to one with the 0.5 default. -/
theorem edge_width_formula (v : ℚ) (h1 : 0 < v) (h2 : v ≤ 1) :
    (1 < edgeWidth (some v) ∧ edgeWidth (some v) ≤ 6) ∧
    edgeWidth (some 0) = 7 / 2 ∧ edgeWidth none = 7 / 2 ∧
    edgeWidth (some 0) = edgeWidth none ∧
    (∀ links : List GraphLinkDto, ∀ e ∈ processGraphDataEdges links,
      ∃ l ∈ links, e.width = edgeWidth l.value) := by
  have hv0 : v ≠ 0 := ne_of_gt h1
  have hw : edgeWidth (some v) = 1 + v * 5 := by
    simp [edgeWidth, jsOrDefault, hv0]
  refine ⟨⟨?_, ?_⟩, by norm_num [edgeWidth, jsOrDefault],
    by norm_num [edgeWidth, jsOrDefault], by norm_num [edgeWidth, jsOrDefault], ?_⟩
  · rw [hw]
    linarith
  · rw [hw]
    linarith
  · intro links e he
    unfold processGraphDataEdges at he
    obtain ⟨pr, hpr, rfl⟩ := List.mem_map.mp he
    exact ⟨pr.2, snd_mem_of_mem_enum hpr, rfl⟩

/-- Witness for C10 at the concrete value 1/2. -/
theorem edge_width_formula_witness :
    ((0 : ℚ) < 1 / 2 ∧ (1 / 2 : ℚ) ≤ 1) ∧
    ((1 < edgeWidth (some (1 / 2)) ∧ edgeWidth (some (1 / 2)) ≤ 6) ∧
      edgeWidth (some 0) = 7 / 2 ∧ edgeWidth none = 7 / 2 ∧
      edgeWidth (some 0) = edgeWidth none ∧
      (∀ links : List GraphLinkDto, ∀ e ∈ processGraphDataEdges links,
        ∃ l ∈ links, e.width = edgeWidth l.value)) :=
  ⟨⟨by norm_num, by norm_num⟩, edge_width_formula (1 / 2) (by norm_num) (by norm_num)⟩

end NoteScape
